import Mathlib

/-
Shallow embedding of pyGitPrivacy.

The coordinator `do_redate` (and the surrounding flows) come from
`gitprivacy/gitprivacy.py`.  The components it drives — the timestamp
transform engine (`timestamp.py`), the crypto provider (`crypto.py`) and
the encrypted recovery store (`database.py`) — are not part of the given
sources, so those are modelled from the specification's words; each such
definition carries a doc comment beginning `Modelled from the spec:`.

Timestamps are modelled as integer epoch seconds together with an integer
UTC offset.  Git commit ids are modelled as perfect content hashes: the
identity of a commit is its content, so a commit's id changes exactly when
its content (including its timestamps) changes.
-/

/-- Error values of the transform engine. -/
inductive TErr where
  | formatError
  | rangeError
deriving DecidableEq, Repr

/-- Modelled from the spec: `distribute(start, end, count)` of the Transform
Engine (`timestamp.py` is not under the given sources).  Returns exactly
`count` values evenly spaced (in integer seconds) across `[start, end]`,
and fails with `RangeError` when `end < start`. -/
def distribute (s e : Int) (n : Nat) : Except TErr (List Int) :=
  if e < s then Except.error TErr.rangeError
  else Except.ok ((List.range n).map fun (i : Nat) => s + (i : Int) * (e - s) / ((n : Int) - 1))

lemma distribute_ok_of_le {s e : Int} {n : Nat} (h : s ≤ e) :
    distribute s e n =
      Except.ok ((List.range n).map fun (i : Nat) => s + (i : Int) * (e - s) / ((n : Int) - 1)) := by
  simp [distribute, not_lt.mpr h]

lemma distribute_length {s e : Int} {n : Nat} {l : List Int}
    (h : distribute s e n = Except.ok l) : l.length = n := by
  by_cases hlt : e < s
  · simp [distribute, hlt] at h
  · simp [distribute, hlt] at h
    subst h
    simp

/-- C4: `distribute(start, end, count)` rejects `end < start` with
`RangeError`; otherwise it returns exactly `count` values, non-decreasing,
with `count == 1` giving `[start]`, and for `count ≥ 2` first element
`start` and last element `end`. -/
theorem distribute_correct (s e : Int) (n : Nat) :
    (e < s → distribute s e n = Except.error TErr.rangeError) ∧
    (s ≤ e → ∃ l, distribute s e n = Except.ok l ∧ l.length = n ∧
      l.Chain' (· ≤ ·) ∧ (n = 1 → l = [s]) ∧
      (2 ≤ n → l.head? = some s ∧ l.getLast? = some e)) := by
  constructor
  · intro h
    simp [distribute, h]
  · intro h
    refine ⟨_, distribute_ok_of_le h, by simp, ?_, ?_, ?_⟩
    · -- non-decreasing
      by_cases h1 : n ≤ 1
      · interval_cases n <;> simp
      · refine List.Pairwise.chain' ?_
        refine (List.pairwise_map).mpr ((List.pairwise_lt_range n).imp ?_)
        intro a b hab
        have hd : (0 : Int) < (n : Int) - 1 := by omega
        have hnum : (a : Int) * (e - s) ≤ (b : Int) * (e - s) :=
          mul_le_mul_of_nonneg_right (by exact_mod_cast Nat.le_of_lt hab)
            (sub_nonneg.mpr h)
        have := Int.ediv_le_ediv hd hnum
        omega
    · -- count = 1
      rintro rfl
      simp
    · -- endpoints for count ≥ 2
      intro hn
      obtain ⟨k, rfl⟩ : ∃ k, n = k + 2 := ⟨n - 2, by omega⟩
      constructor
      · rw [List.range_succ_eq_map]
        simp
      · rw [List.range_succ, List.map_append, List.map_singleton, List.getLast?_concat]
        have hcast : ((k + 2 : Nat) : Int) - 1 = ((k + 1 : Nat) : Int) := by
          push_cast
          ring
        have hne : ((k + 1 : Nat) : Int) ≠ 0 := by
          exact_mod_cast Nat.succ_ne_zero k
        simp only [hcast]
        rw [Int.mul_ediv_cancel_left _ hne]
        simp [add_sub_cancel]

/-- Witness for C4 at concrete inputs. -/
theorem distribute_correct_witness :
    distribute (0 : Int) 9 3 = Except.ok [0, 4, 9] ∧
    distribute (9 : Int) 0 3 = Except.error TErr.rangeError := by
  refine ⟨?_, (distribute_correct 9 0 3).1 (by decide)⟩
  obtain ⟨l, hl, -⟩ := (distribute_correct (0 : Int) 9 3).2 (by decide)
  rfl

/-- A git commit's content: message and author/committer timestamps with
UTC offsets (`authored_date`, `author_tz_offset`, `committed_date`,
`committer_tz_offset` in the source).  A commit's id (`hexsha`) is modelled
as the content itself, i.e. an idealised collision-free content hash, so an
id names a commit exactly when the contents agree. -/
structure Commit where
  msg : String
  a_date : Int
  a_tz : Int
  c_date : Int
  c_tz : Int
deriving DecidableEq, Repr

/-- A repository: its commits in history order, oldest first. -/
structure Repo where
  commits : List Commit
deriving DecidableEq, Repr

/-- Enumeration of commits as `repo.iter_commits()` yields them: newest-first. -/
def iter_commits (r : Repo) : List Commit := r.commits.reverse

/-- A date string: either one that parses to an instant plus UTC offset, or
unparseable text. -/
inductive GitStr where
  | valid (sec : Int) (tz : Int)
  | invalid (s : String)
deriving DecidableEq, Repr

/-- Rendering of epoch seconds and an offset (`TimeStamp.seconds_to_gitstamp`) as
a (well-formed) date string. -/
def seconds_to_gitstamp (sec tz : Int) : GitStr := GitStr.valid sec tz

/-- Parsing/normalising of a date string (`TimeStamp.format`), failing (the
Python `ValueError`) on unparseable text. -/
def formatDate : GitStr → Except TErr GitStr
  | GitStr.valid sec tz => Except.ok (GitStr.valid sec tz)
  | GitStr.invalid _ => Except.error TErr.formatError

/-- The call `TimeStamp.datelist(start, end, amount)` as made by `do_redate`: both
bounds are parsed date strings; unparseable text fails, otherwise the
distribution of `distribute` over the two instants is returned. -/
def datelist (start stop : GitStr) (n : Nat) : Except TErr (List Int) :=
  match start, stop with
  | GitStr.valid s _, GitStr.valid e _ => distribute s e n
  | _, _ => Except.error TErr.formatError

/-- Error values of the crypto provider. -/
inductive CErr where
  | authenticationError
deriving DecidableEq, Repr

/-- Modelled from the spec: `derive_key(secret, salt)` of the Crypto
Provider (`crypto.py` is not under the given sources): a deterministic key
derivation, injective in the pair of inputs. -/
def derive_key (secret salt : Nat) : Nat := Nat.pair secret salt

/-- An authenticated-encryption blob: it self-contains the nonce, and the
authentication tag is modelled by recording which key sealed the payload,
so tag verification is exactly a key comparison. -/
structure Blob where
  nonce : Nat
  sealKey : Nat
  payload : GitStr × GitStr
deriving DecidableEq, Repr

/-- Modelled from the spec: `encrypt(key, plaintext)` with a fresh nonce
supplied by the caller; the blob self-contains nonce, tag and ciphertext. -/
def encrypt (key nonce : Nat) (pt : GitStr × GitStr) : Blob :=
  { nonce := nonce, sealKey := key, payload := pt }

/-- Modelled from the spec: `decrypt(key, blob)` fails with
`AuthenticationError` on tag-verification failure (wrong key), and never
returns a wrong plaintext. -/
def decrypt (key : Nat) (b : Blob) : Except CErr (GitStr × GitStr) :=
  if b.sealKey = key then Except.ok b.payload else Except.error CErr.authenticationError

/-- The recovery store: the derived key it was opened with, a counter
supplying fresh nonces, and the encrypted rows keyed by commit id. -/
structure Database where
  key : Nat
  nonceCtr : Nat
  rows : List (Commit × Blob)
deriving DecidableEq, Repr

/-- Insert-or-replace for the row list, keyed by commit id. -/
def insertReplace (id : Commit) (b : Blob) : List (Commit × Blob) → List (Commit × Blob)
  | [] => [(id, b)]
  | r :: rest => if r.1 = id then (id, b) :: rest else r :: insertReplace id b rest

/-- Modelled from the spec: `put(commit_id, author_time, committer_time)`
of the Recovery Store (`database.py` is not under the given sources):
encrypts both timestamps under the store's key with a fresh nonce and
inserts-or-replaces the record keyed by `commit_id`. -/
def Database.put (db : Database) (id : Commit) (a c : GitStr) : Database :=
  { db with
      nonceCtr := db.nonceCtr + 1,
      rows := insertReplace id (encrypt db.key db.nonceCtr (a, c)) db.rows }

/-- Stores a batch of records, as the update loop of `do_redate` does. -/
def putAll (db : Database) : List (Commit × (GitStr × GitStr)) → Database
  | [] => db
  | r :: rest => putAll (db.put r.1 r.2.1 r.2.2) rest

/-- Decrypts every row; the first tag-verification failure aborts the read. -/
def getAllRows (key : Nat) : List (Commit × Blob) → Except CErr (List (Commit × (GitStr × GitStr)))
  | [] => Except.ok []
  | r :: rest =>
    match decrypt key r.2 with
    | Except.error e => Except.error e
    | Except.ok pt =>
      match getAllRows key rest with
      | Except.error e => Except.error e
      | Except.ok l => Except.ok ((r.1, pt) :: l)

/-- Modelled from the spec: `get_all()` of the Recovery Store: decrypts
every record, failing with `AuthenticationError` when the configured key
cannot decrypt existing data. -/
def Database.get_all (db : Database) : Except CErr (List (Commit × (GitStr × GitStr))) :=
  getAllRows db.key db.rows

/-- C6: the encrypt/decrypt round trip under a key derived from the same
secret and salt is the identity on timestamp pairs. -/
theorem encrypt_decrypt_roundtrip (s salt nonce : Nat) (pair : GitStr × GitStr) :
    decrypt (derive_key s salt) (encrypt (derive_key s salt) nonce pair) = Except.ok pair := by
  simp [decrypt, encrypt]

lemma mem_insertReplace {id : Commit} {b : Blob} {r : Commit × Blob} :
    ∀ l : List (Commit × Blob), r ∈ insertReplace id b l → r = (id, b) ∨ r ∈ l := by
  intro l
  induction l with
  | nil =>
    intro h
    simp [insertReplace] at h
    exact Or.inl h
  | cons x rest ih =>
    intro h
    simp only [insertReplace] at h
    split at h
    · rcases List.mem_cons.mp h with h1 | h1
      · exact Or.inl h1
      · exact Or.inr (List.mem_cons.mpr (Or.inr h1))
    · rcases List.mem_cons.mp h with h1 | h1
      · exact Or.inr (List.mem_cons.mpr (Or.inl h1))
      · rcases ih h1 with h2 | h2
        · exact Or.inl h2
        · exact Or.inr (List.mem_cons.mpr (Or.inr h2))

lemma insertReplace_ne_nil (id : Commit) (b : Blob) (l : List (Commit × Blob)) :
    insertReplace id b l ≠ [] := by
  cases l with
  | nil => simp [insertReplace]
  | cons x rest =>
    simp only [insertReplace]
    split <;> simp

lemma putAll_key (db : Database) (recs : List (Commit × (GitStr × GitStr))) :
    (putAll db recs).key = db.key := by
  induction recs generalizing db with
  | nil => rfl
  | cons x rest ih =>
    show (putAll (db.put x.1 x.2.1 x.2.2) rest).key = db.key
    rw [ih]
    rfl

lemma putAll_sealKey (db : Database) (recs : List (Commit × (GitStr × GitStr)))
    (h : ∀ r ∈ db.rows, (Prod.snd r).sealKey = db.key) :
    ∀ r ∈ (putAll db recs).rows, (Prod.snd r).sealKey = db.key := by
  induction recs generalizing db with
  | nil => exact h
  | cons x rest ih =>
    intro r hr
    refine ih (db.put x.1 x.2.1 x.2.2) ?_ r hr
    intro q hq
    rcases mem_insertReplace _ hq with h1 | h1
    · subst h1
      rfl
    · exact h q h1

lemma putAll_rows_ne_nil (db : Database) (recs : List (Commit × (GitStr × GitStr)))
    (h : db.rows ≠ [] ∨ recs ≠ []) : (putAll db recs).rows ≠ [] := by
  induction recs generalizing db with
  | nil =>
    rcases h with h | h
    · exact h
    · simp at h
  | cons x rest ih =>
    refine ih (db.put x.1 x.2.1 x.2.2) (Or.inl ?_)
    exact insertReplace_ne_nil _ _ _

/-- C5: reading a recovery store whose records were sealed under a key
derived from a different secret fails with `AuthenticationError`, while an
empty store reads back as the empty record set: a wrong password is never
reported as an empty store. -/
theorem get_all_wrong_key_auth (s s' salt nc : Nat)
    (recs : List (Commit × (GitStr × GitStr)))
    (hrecs : recs ≠ []) (hss : s ≠ s') :
    Database.get_all
      { key := derive_key s' salt, nonceCtr := nc,
        rows := (putAll { key := derive_key s salt, nonceCtr := 0, rows := [] } recs).rows }
      = Except.error CErr.authenticationError ∧
    Database.get_all { key := derive_key s' salt, nonceCtr := nc, rows := [] } =
      Except.ok [] := by
  constructor
  · have hkeys : derive_key s salt ≠ derive_key s' salt := by
      simp only [derive_key, Ne, Nat.pair_eq_pair]
      intro h
      exact hss h.1
    have hseal := putAll_sealKey ⟨derive_key s salt, 0, []⟩ recs (by simp)
    have hne := putAll_rows_ne_nil ⟨derive_key s salt, 0, []⟩ recs (Or.inr hrecs)
    obtain ⟨r, rest, hrows⟩ := List.exists_cons_of_ne_nil hne
    have hr : r.2.sealKey = derive_key s salt := by
      refine hseal r ?_
      rw [hrows]
      exact List.mem_cons_self r rest
    simp only [Database.get_all, hrows, getAllRows, decrypt, hr]
    rw [if_neg hkeys]
  · rfl

/-- Witness for C5: one record sealed under the key for secret 0, read back
with the key for secret 1. -/
theorem get_all_wrong_key_auth_witness :
    Database.get_all
      { key := derive_key 1 0, nonceCtr := 0,
        rows := (putAll { key := derive_key 0 0, nonceCtr := 0, rows := [] }
          [(⟨"a", 0, 0, 0, 0⟩, (GitStr.valid 5 0, GitStr.valid 6 0))]).rows }
      = Except.error CErr.authenticationError ∧
    Database.get_all { key := derive_key 1 0, nonceCtr := 0, rows := [] } =
      Except.ok [] :=
  get_all_wrong_key_auth 0 1 0 0 _ (by decide) (by decide)

/-- A single masking directive of a reduction pattern. -/
inductive Directive where
  | second
  | minute
  | hour
  | day
  | month
deriving DecidableEq, Repr

/-- A calendar timestamp with an explicit UTC offset, the unit the
reduction pattern operates on field by field. -/
@[ext]
structure Timestamp where
  year : Nat
  month : Nat
  day : Nat
  hour : Nat
  minute : Nat
  second : Nat
  utcOffset : Int
deriving DecidableEq, Repr

/-- Zeroes the subfield named by one directive. -/
def applyDirective (t : Timestamp) : Directive → Timestamp
  | Directive.second => { t with second := 0 }
  | Directive.minute => { t with minute := 0 }
  | Directive.hour => { t with hour := 0 }
  | Directive.day => { t with day := 0 }
  | Directive.month => { t with month := 0 }

/-- Modelled from the spec: `reduce(real_timestamp, pattern)` of the
Transform Engine (`timestamp.py` is not under the given sources): applies
each masking directive in pattern order, zeroing the named subfield. -/
def reduce (t : Timestamp) (p : List Directive) : Timestamp :=
  p.foldl applyDirective t

lemma reduce_cons (t : Timestamp) (d : Directive) (rest : List Directive) :
    reduce t (d :: rest) = reduce (applyDirective t d) rest := rfl

lemma reduce_second_eq (p : List Directive) (t : Timestamp) :
    (reduce t p).second = if Directive.second ∈ p then 0 else t.second := by
  induction p generalizing t with
  | nil => simp [reduce]
  | cons d rest ih =>
    rw [reduce_cons, ih]
    cases d <;> simp [applyDirective]

lemma reduce_minute_eq (p : List Directive) (t : Timestamp) :
    (reduce t p).minute = if Directive.minute ∈ p then 0 else t.minute := by
  induction p generalizing t with
  | nil => simp [reduce]
  | cons d rest ih =>
    rw [reduce_cons, ih]
    cases d <;> simp [applyDirective]

lemma reduce_hour_eq (p : List Directive) (t : Timestamp) :
    (reduce t p).hour = if Directive.hour ∈ p then 0 else t.hour := by
  induction p generalizing t with
  | nil => simp [reduce]
  | cons d rest ih =>
    rw [reduce_cons, ih]
    cases d <;> simp [applyDirective]

lemma reduce_day_eq (p : List Directive) (t : Timestamp) :
    (reduce t p).day = if Directive.day ∈ p then 0 else t.day := by
  induction p generalizing t with
  | nil => simp [reduce]
  | cons d rest ih =>
    rw [reduce_cons, ih]
    cases d <;> simp [applyDirective]

lemma reduce_month_eq (p : List Directive) (t : Timestamp) :
    (reduce t p).month = if Directive.month ∈ p then 0 else t.month := by
  induction p generalizing t with
  | nil => simp [reduce]
  | cons d rest ih =>
    rw [reduce_cons, ih]
    cases d <;> simp [applyDirective]

lemma reduce_year_eq (p : List Directive) (t : Timestamp) :
    (reduce t p).year = t.year := by
  induction p generalizing t with
  | nil => rfl
  | cons d rest ih =>
    rw [reduce_cons, ih]
    cases d <;> rfl

lemma reduce_utcOffset_eq (p : List Directive) (t : Timestamp) :
    (reduce t p).utcOffset = t.utcOffset := by
  induction p generalizing t with
  | nil => rfl
  | cons d rest ih =>
    rw [reduce_cons, ih]
    cases d <;> rfl

/-- C7: applying a reduction pattern twice equals applying it once. -/
theorem reduce_idempotent (t : Timestamp) (p : List Directive) :
    reduce (reduce t p) p = reduce t p := by
  ext
  · rw [reduce_year_eq]
  · rw [reduce_month_eq, reduce_month_eq]
    split <;> rfl
  · rw [reduce_day_eq, reduce_day_eq]
    split <;> rfl
  · rw [reduce_hour_eq, reduce_hour_eq]
    split <;> rfl
  · rw [reduce_minute_eq, reduce_minute_eq]
    split <;> rfl
  · rw [reduce_second_eq, reduce_second_eq]
    split <;> rfl
  · rw [reduce_utcOffset_eq]

/-- Where, if anywhere, the operator interrupts the redate flow with
`KeyboardInterrupt` (ctrl+c): not at all, at the "last time to make a
backup" confirmation (so before any rewrite), or right after the rewrite
loop and before the store update. -/
inductive Interrupt where
  | none
  | atBackupPrompt
  | afterRewrite
deriving DecidableEq, Repr

/-- How a `do_redate` invocation ends: normal completion; the uncaught
`IndexError` from `commit_list[-1]`; an uncaught error escaping
`datelist`; or the caught `KeyboardInterrupt`. -/
inductive Outcome where
  | completed
  | indexError
  | datelistError (e : TErr)
  | interrupted
deriving DecidableEq, Repr

/-- The state surviving a `do_redate` invocation: the repository, the
recovery store, how the run ended, and whether the flow reached the
"last time to make a backup" confirmation. -/
structure RedateResult where
  repo : Repo
  db : Database
  outcome : Outcome
  backupPrompted : Bool
deriving DecidableEq, Repr

/-- The per-commit history rewrite: the env filter exports the one
distributed value as both `GIT_AUTHOR_DATE` and `GIT_COMMITTER_DATE`. -/
def rewriteCommit (c : Commit) (d : Int) : Commit :=
  { c with a_date := d, c_date := d }

/-- Net effect of the `git filter-branch` loop
(`for commit, date in zip(commit_list, datelist)`): the commits, taken in
the newest-first order of `commit_list`, receive the distributed values in
order; commits beyond the end of the date list stay as they are. -/
def rewriteAll (cl : List Commit) (dl : List Int) : List Commit :=
  (cl.zip dl).map (fun p => rewriteCommit p.1 p.2) ++ cl.drop dl.length

/-- Body of `do_redate` past the `commit_list[-1]` / `commit_list[0]`
accesses.  `startIn`/`endIn` are the operator's date entries (`Option.none`
is pressing enter to accept the default).  An unparseable entry is printed
(`ERROR: Invalid Date`) but the flow continues with the raw text, exactly
as the `except ValueError` handler in the source does. -/
def do_redate_go (repo : Repo) (db : Database) (startIn endIn : Option GitStr)
    (intr : Interrupt) (commit_list : List Commit)
    (first_commit last_commit : Commit) : RedateResult :=
  let first_stamp := seconds_to_gitstamp first_commit.a_date first_commit.a_tz
  let last_stamp := seconds_to_gitstamp last_commit.a_date last_commit.a_tz
  let datelist_original := commit_list.map fun c =>
    (seconds_to_gitstamp c.a_date c.a_tz, seconds_to_gitstamp c.c_date c.c_tz)
  let raw_start := startIn.getD first_stamp
  let start_date := match formatDate raw_start with
    | Except.ok v => v
    | Except.error _ => raw_start
  let raw_end := endIn.getD last_stamp
  let end_date := match formatDate raw_end with
    | Except.ok v => v
    | Except.error _ => raw_end
  if intr = Interrupt.atBackupPrompt then
    { repo := repo, db := db, outcome := Outcome.interrupted, backupPrompted := true }
  else
    match datelist start_date end_date commit_list.length with
    | Except.error e =>
      { repo := repo, db := db, outcome := Outcome.datelistError e, backupPrompted := true }
    | Except.ok dl =>
      let repo2 : Repo := ⟨(rewriteAll commit_list dl).reverse⟩
      if intr = Interrupt.afterRewrite then
        { repo := repo2, db := db, outcome := Outcome.interrupted, backupPrompted := true }
      else
        { repo := repo2,
          db := putAll db (commit_list.zip datelist_original),
          outcome := Outcome.completed, backupPrompted := true }

/-- The coordinator `do_redate` from `gitprivacy.py`: enumerates `commit_list` newest-first,
reads `commit_list[-1]` (oldest) and `commit_list[0]` (newest) for the
prompt defaults, captures `datelist_original`, rewrites every commit to its
distributed value, and finally writes `datelist_original` into the store
keyed by the ids of the pre-rewrite `commit_list`. -/
def do_redate (repo : Repo) (db : Database) (startIn endIn : Option GitStr)
    (intr : Interrupt) : RedateResult :=
  let commit_list := iter_commits repo
  match commit_list.getLast? with
  | Option.none =>
    { repo := repo, db := db, outcome := Outcome.indexError, backupPrompted := false }
  | Option.some first_commit =>
    do_redate_go repo db startIn endIn intr commit_list first_commit
      (commit_list.headD first_commit)

lemma iter_commits_nil_iff (r : Repo) : iter_commits r = [] ↔ r.commits = [] := by
  simp [iter_commits]

lemma do_redate_go_outcome_ne_index (repo : Repo) (db : Database)
    (startIn endIn : Option GitStr) (intr : Interrupt) (cl : List Commit) (fc lc : Commit) :
    (do_redate_go repo db startIn endIn intr cl fc lc).outcome ≠ Outcome.indexError := by
  simp only [do_redate_go]
  split
  · simp
  · split
    · simp
    · split <;> simp

/-- C9: `do_redate` starts by indexing `commit_list[-1]`; the resulting
index error occurs exactly when the repository has no commits, so a
non-empty history is the precondition of the operation. -/
theorem redate_empty_repo_index_error (repo : Repo) (db : Database)
    (startIn endIn : Option GitStr) (intr : Interrupt) :
    (do_redate repo db startIn endIn intr).outcome = Outcome.indexError ↔
      repo.commits = [] := by
  rcases hl : (iter_commits repo).getLast? with _ | fc
  · have hnil : iter_commits repo = [] := List.getLast?_eq_none_iff.mp hl
    constructor
    · intro _
      exact (iter_commits_nil_iff repo).mp hnil
    · intro _
      simp [do_redate, hl]
  · constructor
    · intro h
      simp only [do_redate, hl] at h
      exact absurd h (do_redate_go_outcome_ne_index repo db startIn endIn intr
        (iter_commits repo) fc ((iter_commits repo).headD fc))
    · intro h
      rw [(iter_commits_nil_iff repo).mpr h] at hl
      simp at hl

/-- C8 (amended, first half): interrupting right after the rewrite loop
leaves the recovery store exactly as it was. -/
theorem redate_interrupt_store_untouched (repo : Repo) (db : Database)
    (startIn endIn : Option GitStr) :
    (do_redate repo db startIn endIn Interrupt.afterRewrite).db = db := by
  rcases hl : (iter_commits repo).getLast? with _ | fc
  · simp [do_redate, hl]
  · simp only [do_redate, hl]
    simp only [do_redate_go]
    split
    · rfl
    · split
      · rfl
      · split
        · rfl
        · simp_all

/-- C8 counterexample (second half of the claim): two repositories that
differ only in their original timestamps give bitwise identical results
when the redate is interrupted right after the rewrite, so the captured
original timestamps survive nowhere — a persist-only retry is
impossible. -/
theorem redate_interrupt_no_retention_cex :
    do_redate ⟨[⟨"m", 100, 0, 100, 0⟩]⟩ ⟨0, 0, []⟩
        (some (GitStr.valid 1000 0)) (some (GitStr.valid 2000 0)) Interrupt.afterRewrite
      = do_redate ⟨[⟨"m", 200, 0, 300, 0⟩]⟩ ⟨0, 0, []⟩
        (some (GitStr.valid 1000 0)) (some (GitStr.valid 2000 0)) Interrupt.afterRewrite
    ∧ (⟨[⟨"m", 100, 0, 100, 0⟩]⟩ : Repo) ≠ ⟨[⟨"m", 200, 0, 300, 0⟩]⟩ := by
  decide

lemma datelist_invalid_start (txt : String) (x : GitStr) (n : Nat) :
    datelist (GitStr.invalid txt) x n = Except.error TErr.formatError := by
  cases x <;> rfl

lemma datelist_invalid_stop (x : GitStr) (txt : String) (n : Nat) :
    datelist x (GitStr.invalid txt) n = Except.error TErr.formatError := by
  cases x <;> rfl

/-- C3 (amended): an unparseable start or end date entry is not rejected at
its prompt — the error is printed and the flow continues, through the
remaining prompts and the backup confirmation, with the raw text; the run
then dies at the date-list computation.  No commit is rewritten and the
store is unchanged. -/
theorem redate_format_error_late_failure (repo : Repo) (db : Database)
    (startIn endIn : Option GitStr) (hne : repo.commits ≠ [])
    (hinv : (∃ txt, startIn = some (GitStr.invalid txt)) ∨
      (∃ txt, endIn = some (GitStr.invalid txt))) :
    do_redate repo db startIn endIn Interrupt.none =
      { repo := repo, db := db, outcome := Outcome.datelistError TErr.formatError,
        backupPrompted := true } := by
  rcases hl : (iter_commits repo).getLast? with _ | fc
  · exact absurd ((iter_commits_nil_iff repo).mp (List.getLast?_eq_none_iff.mp hl)) hne
  · rcases hinv with ⟨txt, rfl⟩ | ⟨txt, rfl⟩
    · simp only [do_redate, hl]
      simp only [do_redate_go, Option.getD, formatDate]
      simp [datelist_invalid_start]
    · simp only [do_redate, hl]
      simp only [do_redate_go, Option.getD]
      rcases startIn with _ | g
      · simp [formatDate, seconds_to_gitstamp, datelist_invalid_stop]
      · cases g
        · simp [formatDate, datelist_invalid_stop]
        · simp [formatDate, datelist_invalid_stop]

/-- Witness for C3 (amended): a parseable explicit start entry together
with an unparseable end entry. -/
theorem redate_format_error_late_failure_witness :
    do_redate ⟨[⟨"w", 7, 0, 8, 0⟩]⟩ ⟨3, 0, []⟩
        (some (GitStr.valid 5 0)) (some (GitStr.invalid "tomorrow")) Interrupt.none =
      { repo := ⟨[⟨"w", 7, 0, 8, 0⟩]⟩, db := ⟨3, 0, []⟩,
        outcome := Outcome.datelistError TErr.formatError, backupPrompted := true } :=
  redate_format_error_late_failure ⟨[⟨"w", 7, 0, 8, 0⟩]⟩ ⟨3, 0, []⟩
    (some (GitStr.valid 5 0)) (some (GitStr.invalid "tomorrow")) (by decide)
    (Or.inr ⟨"tomorrow", rfl⟩)

/-- C3 counterexample to the claim as stated: with an unparseable start
date the flow still reaches the "last time to make a backup" confirmation
(so it did not reject immediately); it fails only afterwards, inside the
date-list computation. -/
theorem redate_format_error_cex :
    (do_redate ⟨[⟨"m", 100, 0, 100, 0⟩]⟩ ⟨0, 0, []⟩
        (some (GitStr.invalid "Christmas")) (some (GitStr.valid 2000 0))
        Interrupt.none).backupPrompted = true ∧
    (do_redate ⟨[⟨"m", 100, 0, 100, 0⟩]⟩ ⟨0, 0, []⟩
        (some (GitStr.invalid "Christmas")) (some (GitStr.valid 2000 0))
        Interrupt.none).outcome = Outcome.datelistError TErr.formatError := by
  decide

lemma rewriteAll_eq_of_length (cl : List Commit) (dl : List Int) (h : dl.length = cl.length) :
    rewriteAll cl dl = (cl.zip dl).map (fun p => rewriteCommit p.1 p.2) := by
  simp [rewriteAll, h, List.drop_length]

lemma rewriteAll_map_a_date (cl : List Commit) (dl : List Int) (h : dl.length = cl.length) :
    (rewriteAll cl dl).map Commit.a_date = dl := by
  rw [rewriteAll_eq_of_length cl dl h, List.map_map]
  have hfun : (Commit.a_date ∘ fun p : Commit × Int => rewriteCommit p.1 p.2) = Prod.snd := rfl
  rw [hfun]
  exact List.map_snd_zip cl dl (le_of_eq h)

lemma rewriteAll_map_c_date (cl : List Commit) (dl : List Int) (h : dl.length = cl.length) :
    (rewriteAll cl dl).map Commit.c_date = dl := by
  rw [rewriteAll_eq_of_length cl dl h, List.map_map]
  have hfun : (Commit.c_date ∘ fun p : Commit × Int => rewriteCommit p.1 p.2) = Prod.snd := rfl
  rw [hfun]
  exact List.map_snd_zip cl dl (le_of_eq h)

lemma rewriteAll_dates_eq (cl : List Commit) (dl : List Int) (h : dl.length = cl.length) :
    ∀ c ∈ rewriteAll cl dl, c.a_date = c.c_date := by
  intro c hc
  rw [rewriteAll_eq_of_length cl dl h] at hc
  obtain ⟨p, hp, rfl⟩ := List.mem_map.mp hc
  rfl

lemma do_redate_valid_run (repo : Repo) (db : Database) (s e sTz eTz : Int)
    (fc : Commit) (hl : (iter_commits repo).getLast? = some fc)
    (dl : List Int) (hdl : distribute s e (iter_commits repo).length = Except.ok dl) :
    do_redate repo db (some (GitStr.valid s sTz)) (some (GitStr.valid e eTz))
        Interrupt.none =
      { repo := ⟨(rewriteAll (iter_commits repo) dl).reverse⟩,
        db := putAll db ((iter_commits repo).zip ((iter_commits repo).map fun c =>
          (seconds_to_gitstamp c.a_date c.a_tz, seconds_to_gitstamp c.c_date c.c_tz))),
        outcome := Outcome.completed, backupPrompted := true } := by
  simp only [do_redate, hl]
  simp [do_redate_go, formatDate, datelist, hdl]

/-- C2 counterexample to the claim as stated: in a two-commit repository
redated to the interval `[1000, 3000]`, the oldest commit ends up with the
end value 3000 and the newest with the start value 1000 — not the other
way round as claimed. -/
theorem redate_order_cex :
    ((do_redate ⟨[⟨"old", 100, 0, 100, 0⟩, ⟨"new", 200, 0, 200, 0⟩]⟩ ⟨0, 0, []⟩
        (some (GitStr.valid 1000 0)) (some (GitStr.valid 3000 0))
        Interrupt.none).repo.commits.map Commit.a_date) = [3000, 1000] ∧
    ([3000, 1000] : List Int) ≠ [1000, 3000] := by
  decide

/-- C2 (amended): bulk redate reads the commit sequence newest-first and
pairs it positionally with the distributed values, so in newest-first
order the commits carry exactly the distributed sequence: the newest
commit receives the start value and the oldest the end value. -/
theorem redate_newest_first_assignment (repo : Repo) (db : Database)
    (s e sTz eTz : Int) (hne : repo.commits ≠ []) (hse : s ≤ e) :
    ∃ dl, distribute s e repo.commits.length = Except.ok dl ∧
      (do_redate repo db (some (GitStr.valid s sTz)) (some (GitStr.valid e eTz))
          Interrupt.none).outcome = Outcome.completed ∧
      (iter_commits (do_redate repo db (some (GitStr.valid s sTz))
          (some (GitStr.valid e eTz)) Interrupt.none).repo).map Commit.a_date = dl ∧
      (iter_commits (do_redate repo db (some (GitStr.valid s sTz))
          (some (GitStr.valid e eTz)) Interrupt.none).repo).map Commit.c_date = dl := by
  have hlen : (iter_commits repo).length = repo.commits.length := by
    simp [iter_commits]
  rcases hl : (iter_commits repo).getLast? with _ | fc
  · exact absurd ((iter_commits_nil_iff repo).mp (List.getLast?_eq_none_iff.mp hl)) hne
  · refine ⟨_, distribute_ok_of_le hse, ?_⟩
    have hdl : distribute s e (iter_commits repo).length =
        Except.ok ((List.range repo.commits.length).map
          fun (i : Nat) => s + (i : Int) * (e - s) / ((repo.commits.length : Int) - 1)) := by
      rw [hlen]
      exact distribute_ok_of_le hse
    have hrun := do_redate_valid_run repo db s e sTz eTz fc hl _ hdl
    have hdllen : ((List.range repo.commits.length).map
        fun (i : Nat) => s + (i : Int) * (e - s) / ((repo.commits.length : Int) - 1)).length =
        (iter_commits repo).length := by
      simp [hlen]
    rw [hrun]
    refine ⟨rfl, ?_, ?_⟩
    · simp only [iter_commits, List.reverse_reverse]
      exact rewriteAll_map_a_date _ _ hdllen
    · simp only [iter_commits, List.reverse_reverse]
      exact rewriteAll_map_c_date _ _ hdllen

/-- Witness for C2 (amended): a two-commit repository redated to
`[10, 20]`; in newest-first order the rewritten dates are `[10, 20]`,
i.e. the newest commit got 10 (the start) and the oldest got 20 (the
end). -/
theorem redate_newest_first_assignment_witness :
    (iter_commits (do_redate ⟨[⟨"o", 1, 0, 1, 0⟩, ⟨"n", 2, 0, 2, 0⟩]⟩ ⟨0, 0, []⟩
        (some (GitStr.valid 10 0)) (some (GitStr.valid 20 0))
        Interrupt.none).repo).map Commit.a_date = [10, 20] := by
  obtain ⟨dl, hdl, -, ha, -⟩ :=
    redate_newest_first_assignment ⟨[⟨"o", 1, 0, 1, 0⟩, ⟨"n", 2, 0, 2, 0⟩]⟩ ⟨0, 0, []⟩
      10 20 0 0 (by decide) (by decide)
  have : dl = [10, 20] := by
    have h2 : distribute (10 : Int) 20
        (Repo.mk [⟨"o", 1, 0, 1, 0⟩, ⟨"n", 2, 0, 2, 0⟩]).commits.length =
        Except.ok [10, 20] := by rfl
    rw [h2] at hdl
    exact (Except.ok.injEq _ _).mp hdl.symm
  rw [ha, this]

/-- C10: every commit processed by the rewrite loop receives the same
distributed value as both its author date and its committer date, even
when the captured originals differ. -/
theorem redate_author_eq_committer (repo : Repo) (db : Database)
    (s e sTz eTz : Int) (hne : repo.commits ≠ []) (hse : s ≤ e) :
    ∀ c ∈ (do_redate repo db (some (GitStr.valid s sTz)) (some (GitStr.valid e eTz))
        Interrupt.none).repo.commits, c.a_date = c.c_date := by
  have hlen : (iter_commits repo).length = repo.commits.length := by
    simp [iter_commits]
  rcases hl : (iter_commits repo).getLast? with _ | fc
  · exact absurd ((iter_commits_nil_iff repo).mp (List.getLast?_eq_none_iff.mp hl)) hne
  · have hdl : distribute s e (iter_commits repo).length =
        Except.ok ((List.range (iter_commits repo).length).map
          fun (i : Nat) => s + (i : Int) * (e - s) / (((iter_commits repo).length : Int) - 1)) :=
      distribute_ok_of_le hse
    have hrun := do_redate_valid_run repo db s e sTz eTz fc hl _ hdl
    rw [hrun]
    intro c hc
    simp only [List.mem_reverse] at hc
    exact rewriteAll_dates_eq _ _ (by simp) c hc

/-- Witness for C10: a one-commit repository whose original author and
committer dates differ (10 vs 20); after redating to `[100, 100]` the
rewritten commit carries 100 as both dates. -/
theorem redate_author_eq_committer_witness :
    (⟨"w", 100, 0, 100, 0⟩ : Commit).a_date = (⟨"w", 100, 0, 100, 0⟩ : Commit).c_date :=
  redate_author_eq_committer ⟨[⟨"w", 10, 0, 20, 0⟩]⟩ ⟨0, 0, []⟩ 100 100 0 0
    (by decide) (by decide) ⟨"w", 100, 0, 100, 0⟩ (by decide)

/-- C1: `do_redate` persists the recovery records keyed by the ids of the
stale pre-rewrite `commit_list`, without re-enumerating: after a
successful run on a one-commit repository, the store's only key is the
pre-rewrite commit id, which names no commit of the rewritten
repository. -/
theorem redate_persists_pre_rewrite_ids :
    (do_redate ⟨[⟨"m", 100, 0, 150, 0⟩]⟩ ⟨0, 0, []⟩
        (some (GitStr.valid 1000 0)) (some (GitStr.valid 2000 0))
        Interrupt.none).outcome = Outcome.completed ∧
    ((do_redate ⟨[⟨"m", 100, 0, 150, 0⟩]⟩ ⟨0, 0, []⟩
        (some (GitStr.valid 1000 0)) (some (GitStr.valid 2000 0))
        Interrupt.none).db.rows.map Prod.fst) = [⟨"m", 100, 0, 150, 0⟩] ∧
    (⟨"m", 100, 0, 150, 0⟩ : Commit) ∉
      (do_redate ⟨[⟨"m", 100, 0, 150, 0⟩]⟩ ⟨0, 0, []⟩
        (some (GitStr.valid 1000 0)) (some (GitStr.valid 2000 0))
        Interrupt.none).repo.commits := by
  decide
